import Mathlib

/- A shallow embedding of src/ee/executors/orderbyexecutor.cpp, the VoltDB
ORDER BY executor.  A tuple is a row of integer values; a sort-key expression
is an opaque evaluator producing an ordered value for a tuple, mirroring
AbstractExpression::eval followed by NValue::compare (a three-way int result).
std::sort and std::partial_sort, called by the executor with a strict
comparator, are modelled by deterministic implementations meeting the C++
library contracts: a stable insertion sort for std::sort and repeated
minimum extraction for std::partial_sort (first m positions hold the m
smallest elements in comparator order, the rest left over).  The progress
monitor (ProgressMonitorProxy::countdownProgress) is modelled as an oracle
telling, for each successive call, whether it raises the cancellation
signal; a raised signal is an exception, rendered as Except.error carrying
the list of tuples already inserted into the output table at that point. -/

/-- Mirrors the SortDirectionType enum as used by the executor:
SORT_DIRECTION_TYPE_ASC, SORT_DIRECTION_TYPE_DESC, and SORT_DIRECTION_TYPE_INVALID
standing for any value outside the two valid directions. -/
inductive SortDirectionType
  | ASC
  | DESC
  | INVALID
  deriving DecidableEq

/-- A tuple: a fixed-schema row of ordered values (TableTuple). -/
abbrev Tuple := List Int

/-- A sort-key expression: AbstractExpression::eval as an opaque evaluator into
the totally ordered value domain. -/
abbrev SortKey := Tuple → Int

/-- The ordered pairs (key expression, direction) of the operator.  The source
keeps two parallel vectors m_keys and m_dirs with asserted equal length
(TupleComparer constructor); they are modelled as one list of pairs. -/
abbrev SortSpec := List (SortKey × SortDirectionType)

/-- NValue::compare: three-way comparison of two ordered values, negative /
zero / positive exactly as the int cmp of the source. -/
def nvalueCompare (a b : Int) : Int :=
  if a < b then -1 else if b < a then 1 else 0

/-- The message of the SerializableEEException thrown by TupleComparer for a
direction outside ASC and DESC. -/
def invalidSortDirectionMsg : String :=
  "Attempted to sort using SORT_DIRECTION_TYPE_INVALID"

/-- TupleComparer::operator()(ta, tb): walk the (key, direction) entries in
priority order; ASC returns true on negative and false on positive comparison,
DESC the reverse, any other direction throws; all entries equal yields false. -/
def tupleComparerRun : SortSpec → Tuple → Tuple → Except String Bool
  | [], _, _ => .ok false
  | (k, d) :: rest, ta, tb =>
    match d with
    | .ASC =>
      if nvalueCompare (k ta) (k tb) < 0 then .ok true
      else if 0 < nvalueCompare (k ta) (k tb) then .ok false
      else tupleComparerRun rest ta tb
    | .DESC =>
      if nvalueCompare (k ta) (k tb) < 0 then .ok false
      else if 0 < nvalueCompare (k ta) (k tb) then .ok true
      else tupleComparerRun rest ta tb
    | .INVALID => .error invalidSortDirectionMsg

/-- The comparator as the plain Bool predicate handed to std::sort /
std::partial_sort.  On a spec whose directions are all valid this is the
value of tupleComparerRun (proved below); an invalid direction would escape
the sort call as an exception instead, which no claim about p_execute
exercises, so the error case is collapsed to false here. -/
def tupleLess (s : SortSpec) (ta tb : Tuple) : Bool :=
  match tupleComparerRun s ta tb with
  | .ok v => v
  | .error _ => false

/-- The non-strict order induced by a strict Bool comparator, as used by the
C++ sorted-range postcondition: a comes no later than b when b is not
strictly less than a. -/
def bLe (lt : Tuple → Tuple → Bool) (a b : Tuple) : Prop :=
  lt b a = false

instance (lt : Tuple → Tuple → Bool) : DecidableRel (bLe lt) :=
  fun a b => inferInstanceAs (Decidable (lt b a = false))

/-- Extract the first minimal element (under the strict comparator) from a
list, returning it with the remainder in original order. -/
def extractMin (lt : Tuple → Tuple → Bool) : List Tuple → Option (Tuple × List Tuple)
  | [] => none
  | a :: l =>
    match extractMin lt l with
    | none => some (a, [])
    | some (b, l2) => if lt b a then some (b, a :: l2) else some (a, l)

/-- Model of std::partial_sort(xs.begin(), xs.begin() + m, xs.end(), lt):
the first m positions receive the m comparator-smallest elements in sorted
order (by repeated minimum extraction); the remaining positions hold the
leftover elements. -/
def selectSort (lt : Tuple → Tuple → Bool) : Nat → List Tuple → List Tuple
  | 0, xs => xs
  | m + 1, xs =>
    match extractMin lt xs with
    | none => []
    | some (y, rest) => y :: selectSort lt m rest

/-- A progress monitor that never raises the cancellation signal. -/
def noCancel : Nat → Bool := fun _ => false

/-- The materialization loop of p_execute: for each input tuple, first
pmp.countdownProgress() (call number n, raising when the oracle says so),
then xs.push_back(tuple).  On cancellation nothing has been inserted into
the output table yet. -/
def materialize (cancelAt : Nat → Bool) : List Tuple → Nat → Except Unit (List Tuple × Nat)
  | [], n => .ok ([], n)
  | t :: ts, n =>
    if cancelAt n then .error ()
    else
      match materialize cancelAt ts (n + 1) with
      | .error e => .error e
      | .ok (xs, n2) => .ok (t :: xs, n2)

/-- The emission loop of p_execute over the ordered sequence: tuples are
skipped while tuple_skipped < offset; otherwise the tuple is inserted into
the output table, pmp.countdownProgress() runs (a raised signal therefore
happens after the insertion), and the loop breaks as soon as
limit >= 0 && ++tuple_ctr >= limit.  The result carries the inserted tuples
(inside error when the monitor cancelled) and the monitor call count. -/
def emitLoop (cancelAt : Nat → Bool) (lim off : Int) :
    List Tuple → Int → Int → Nat → Except (List Tuple) (List Tuple × Nat)
  | [], _, _, n => .ok ([], n)
  | t :: rest, ctr, skipped, n =>
    if skipped < off then
      emitLoop cancelAt lim off rest ctr (skipped + 1) n
    else if cancelAt n then .error [t]
    else if 0 ≤ lim ∧ lim ≤ ctr + 1 then .ok ([t], n + 1)
    else
      match emitLoop cancelAt lim off rest (ctr + 1) skipped (n + 1) with
      | .error out => .error (t :: out)
      | .ok (out, n2) => .ok (t :: out, n2)

/-- The ordering stage of p_execute: partial sort to position limit + offset
when limit >= 0 && xs.begin() + limit + offset < xs.end(), full sort
otherwise.  (A negative middle never arises from a resolved window; it is
clamped to 0 here, where the C++ iterator arithmetic would be out of
contract.) -/
def orderedSeq (s : SortSpec) (lim off : Int) (xs : List Tuple) : List Tuple :=
  if 0 ≤ lim ∧ lim + off < (xs.length : Int) then
    selectSort (tupleLess s) (lim + off).toNat xs
  else
    List.insertionSort (bLe (tupleLess s)) xs

/-- OrderByExecutor::p_execute.  lim and off are the values left in the local
ints limit and offset after the optional inline limit node resolved them
against the parameters (both stay -1 when no limit node is present).  The
normal return is the inserted tuples together with the literal return value
true; a cancellation signal propagates as an error carrying whatever was
inserted before it was raised. -/
def p_execute (cancelAt : Nat → Bool) (s : SortSpec) (lim off : Int)
    (input : List Tuple) : Except (List Tuple) (List Tuple × Bool) :=
  match materialize cancelAt input 0 with
  | .error _ => .error []
  | .ok (xs, n) =>
    match emitLoop cancelAt lim off (orderedSeq s lim off xs) 0 0 n with
    | .error out => .error out
    | .ok (out, _) => .ok (out, true)

/-- The tuples this execution inserted into the output table, whether the
execution succeeded or was cancelled midway. -/
def insertedOf : Except (List Tuple) (List Tuple × Bool) → List Tuple
  | .error out => out
  | .ok (out, _) => out

/-- The tuples inserted by the emission loop alone, in either outcome. -/
def emitInserted : Except (List Tuple) (List Tuple × Nat) → List Tuple
  | .error out => out
  | .ok (out, _) => out

/-- An output schema, derived from the input table. -/
abbrev Schema := List String

/-- Modelled from the spec: setTempOutputLikeInputTable (defined in
AbstractExecutor, outside src/) makes the output temp table look exactly
like the input table, so the output schema is the input schema. -/
def setTempOutputLikeInputTable (inputSchema : Schema) : Schema :=
  inputSchema

/-- The ConfigurationError of the spec's error taxonomy for malformed
operator wiring detected at init. -/
def configurationErrorMsg : String :=
  "ConfigurationError"

/-- OrderByExecutor::p_init.  Modelled from the spec for the failure path:
the source guards the input arity with assert(node->getInputTables().size() == 1),
whose firing the spec renders as a ConfigurationError; on arity one the
output schema is derived from the input via setTempOutputLikeInputTable, the
optional inline limit node is picked up, and true is returned. -/
def p_init (inputTableCount : Nat) (inputSchema : Schema)
    (inlineLimit : Option Nat) : Except String (Schema × Option Nat × Bool) :=
  if inputTableCount = 1 then
    .ok (setTempOutputLikeInputTable inputSchema, inlineLimit, true)
  else
    .error configurationErrorMsg

/-- A spec whose directions are all valid (inside the ASC and DESC set). -/
abbrev ValidSpec (s : SortSpec) : Prop :=
  ∀ p ∈ s, p.2 ≠ SortDirectionType.INVALID

/-- Direction adjustment of a raw three-way comparison: ascending keeps the
sense, descending inverts it.  (The invalid constructor is never consulted
by the spec-side verdict, which only exists for valid specs; it is mapped
to the identity.) -/
def dirAdjusted : SortDirectionType → Int → Int
  | .ASC, c => c
  | .DESC, c => -c
  | .INVALID, c => c

/-- Modelled from the spec: the lexicographic verdict of the comparator
contract.  Decide by the first entry whose direction-adjusted key comparison
is non-zero; negative means the first tuple strictly precedes; all entries
equal means no strict precedence. -/
def lexVerdict : SortSpec → Tuple → Tuple → Bool
  | [], _, _ => false
  | (k, d) :: rest, ta, tb =>
    if dirAdjusted d (nvalueCompare (k ta) (k tb)) < 0 then true
    else if 0 < dirAdjusted d (nvalueCompare (k ta) (k tb)) then false
    else lexVerdict rest ta tb

/-- Modelled from the spec: the reference output of a full sort of the
materialized sequence followed by the same offset/limit windowing, for
comparison against the partial-ordering path. -/
def windowedFullSort (s : SortSpec) (lim off : Int) (input : List Tuple) : List Tuple :=
  emitInserted
    (emitLoop noCancel lim off (List.insertionSort (bLe (tupleLess s)) input) 0 0 0)

/-- The entries of a spec up to and including the first one whose raw key
comparison on the given pair is non-zero (the whole spec when no such entry
exists). -/
def decidingPfx : SortSpec → Tuple → Tuple → SortSpec
  | [], _, _ => []
  | (k, d) :: rest, ta, tb =>
    if nvalueCompare (k ta) (k tb) = 0 then (k, d) :: decidingPfx rest ta tb
    else [(k, d)]

/-- The number of tuples the emission loop inserts from a remainder of r
tuples past the offset: all of them without a limit; with limit L, at most
max(L, 1) of them, one tuple going in before a zero limit is consulted. -/
def emitCount (lim : Int) (r : Nat) : Nat :=
  if 0 ≤ lim then min r (max lim.toNat 1) else r

/- Comparator lemmas. -/

theorem run_cons_ASC (k : SortKey) (rest : SortSpec) (ta tb : Tuple) :
    tupleComparerRun ((k, .ASC) :: rest) ta tb =
      if k ta < k tb then .ok true
      else if k tb < k ta then .ok false
      else tupleComparerRun rest ta tb := by
  simp only [tupleComparerRun, nvalueCompare]
  split_ifs <;> first | rfl | omega

theorem run_cons_DESC (k : SortKey) (rest : SortSpec) (ta tb : Tuple) :
    tupleComparerRun ((k, .DESC) :: rest) ta tb =
      if k ta < k tb then .ok false
      else if k tb < k ta then .ok true
      else tupleComparerRun rest ta tb := by
  simp only [tupleComparerRun, nvalueCompare]
  split_ifs <;> first | rfl | omega

theorem run_cons_INVALID (k : SortKey) (rest : SortSpec) (ta tb : Tuple) :
    tupleComparerRun ((k, .INVALID) :: rest) ta tb = .error invalidSortDirectionMsg := rfl

theorem lex_cons_ASC (k : SortKey) (rest : SortSpec) (ta tb : Tuple) :
    lexVerdict ((k, .ASC) :: rest) ta tb =
      if k ta < k tb then true
      else if k tb < k ta then false
      else lexVerdict rest ta tb := by
  simp only [lexVerdict, dirAdjusted, nvalueCompare]
  split_ifs <;> first | rfl | omega

theorem lex_cons_DESC (k : SortKey) (rest : SortSpec) (ta tb : Tuple) :
    lexVerdict ((k, .DESC) :: rest) ta tb =
      if k ta < k tb then false
      else if k tb < k ta then true
      else lexVerdict rest ta tb := by
  simp only [lexVerdict, dirAdjusted, nvalueCompare]
  split_ifs <;> first | rfl | omega

theorem lex_cons_INVALID (k : SortKey) (rest : SortSpec) (ta tb : Tuple) :
    lexVerdict ((k, .INVALID) :: rest) ta tb =
      if k ta < k tb then true
      else if k tb < k ta then false
      else lexVerdict rest ta tb := by
  simp only [lexVerdict, dirAdjusted, nvalueCompare]
  split_ifs <;> first | rfl | omega

theorem tupleComparerRun_eq_lexVerdict :
    ∀ (s : SortSpec) (ta tb : Tuple), ValidSpec s →
      tupleComparerRun s ta tb = .ok (lexVerdict s ta tb)
  | [], _, _, _ => rfl
  | (k, d) :: rest, ta, tb, hs => by
    have htail : ValidSpec rest := fun p hp => hs p (List.mem_cons_of_mem _ hp)
    have ih := tupleComparerRun_eq_lexVerdict rest ta tb htail
    cases d with
    | ASC =>
      rw [run_cons_ASC, lex_cons_ASC]
      split_ifs <;> simp [ih]
    | DESC =>
      rw [run_cons_DESC, lex_cons_DESC]
      split_ifs <;> simp [ih]
    | INVALID =>
      exact absurd rfl (hs (k, .INVALID) (List.mem_cons_self _ _))

theorem tupleLess_eq_lexVerdict (s : SortSpec) (ta tb : Tuple) (hs : ValidSpec s) :
    tupleLess s ta tb = lexVerdict s ta tb := by
  unfold tupleLess
  rw [tupleComparerRun_eq_lexVerdict s ta tb hs]

theorem lexVerdict_asymm :
    ∀ (s : SortSpec) (a b : Tuple), lexVerdict s a b = true → lexVerdict s b a = false
  | [], _, _, h => by simp [lexVerdict] at h
  | (k, d) :: rest, a, b, h => by
    have ih := lexVerdict_asymm rest a b
    cases d with
    | ASC =>
      rw [lex_cons_ASC] at h ⊢
      split_ifs at h ⊢ <;> first | rfl | omega | exact ih h
    | DESC =>
      rw [lex_cons_DESC] at h ⊢
      split_ifs at h ⊢ <;> first | rfl | omega | exact ih h
    | INVALID =>
      rw [lex_cons_INVALID] at h ⊢
      split_ifs at h ⊢ <;> first | rfl | omega | exact ih h

theorem lexVerdict_of_zeros :
    ∀ (s : SortSpec) (ta tb : Tuple),
      (∀ p ∈ s, nvalueCompare (p.1 ta) (p.1 tb) = 0) → lexVerdict s ta tb = false
  | [], _, _, _ => rfl
  | (k, d) :: rest, ta, tb, h => by
    have h0 : nvalueCompare (k ta) (k tb) = 0 := h (k, d) (List.mem_cons_self _ _)
    have htail := lexVerdict_of_zeros rest ta tb fun p hp => h p (List.mem_cons_of_mem _ hp)
    have hadj : dirAdjusted d (nvalueCompare (k ta) (k tb)) = 0 := by
      rw [h0]; cases d <;> rfl
    simp only [lexVerdict, hadj]
    simpa using htail

theorem lexVerdict_le_trans :
    ∀ (s : SortSpec) (a b c : Tuple),
      lexVerdict s b a = false → lexVerdict s c b = false → lexVerdict s c a = false
  | [], _, _, _, _, _ => rfl
  | (k, d) :: rest, a, b, c, h1, h2 => by
    have ih := lexVerdict_le_trans rest a b c
    cases d with
    | ASC =>
      rw [lex_cons_ASC] at h1 h2 ⊢
      split_ifs at h1 h2 ⊢ <;> first | rfl | omega | exact ih h1 h2
    | DESC =>
      rw [lex_cons_DESC] at h1 h2 ⊢
      split_ifs at h1 h2 ⊢ <;> first | rfl | omega | exact ih h1 h2
    | INVALID =>
      rw [lex_cons_INVALID] at h1 h2 ⊢
      split_ifs at h1 h2 ⊢ <;> first | rfl | omega | exact ih h1 h2

theorem bLe_total_of_valid (s : SortSpec) (hs : ValidSpec s) (a b : Tuple) :
    bLe (tupleLess s) a b ∨ bLe (tupleLess s) b a := by
  unfold bLe
  rw [tupleLess_eq_lexVerdict s a b hs, tupleLess_eq_lexVerdict s b a hs]
  rcases hv : lexVerdict s a b with _ | _
  · right; rfl
  · left; exact lexVerdict_asymm s a b hv

theorem bLe_trans_of_valid (s : SortSpec) (hs : ValidSpec s) (a b c : Tuple) :
    bLe (tupleLess s) a b → bLe (tupleLess s) b c → bLe (tupleLess s) a c := by
  unfold bLe
  rw [tupleLess_eq_lexVerdict s b a hs, tupleLess_eq_lexVerdict s c b hs,
    tupleLess_eq_lexVerdict s c a hs]
  exact lexVerdict_le_trans s a b c

theorem nvalueCompare_eq_zero_iff (a b : Int) : nvalueCompare a b = 0 ↔ a = b := by
  unfold nvalueCompare
  split_ifs <;> constructor <;> intro h <;> first | exact h.elim | trivial | omega

theorem run_error_of_zeros :
    ∀ (pre : SortSpec) (k : SortKey) (rest : SortSpec) (ta tb : Tuple),
      (∀ p ∈ pre, nvalueCompare (p.1 ta) (p.1 tb) = 0) →
      tupleComparerRun (pre ++ (k, .INVALID) :: rest) ta tb = .error invalidSortDirectionMsg
  | [], _, _, _, _, _ => rfl
  | (k0, d0) :: pre, k, rest, ta, tb, h => by
    have h0 : nvalueCompare (k0 ta) (k0 tb) = 0 := h (k0, d0) (List.mem_cons_self _ _)
    have heq : k0 ta = k0 tb := (nvalueCompare_eq_zero_iff _ _).1 h0
    have ih := run_error_of_zeros pre k rest ta tb fun p hp => h p (List.mem_cons_of_mem _ hp)
    cases d0 with
    | ASC =>
      rw [List.cons_append, run_cons_ASC, heq]
      simpa using ih
    | DESC =>
      rw [List.cons_append, run_cons_DESC, heq]
      simpa using ih
    | INVALID =>
      rw [List.cons_append, run_cons_INVALID]

theorem run_decidingPfx :
    ∀ (s : SortSpec) (ta tb : Tuple),
      tupleComparerRun s ta tb = tupleComparerRun (decidingPfx s ta tb) ta tb
  | [], _, _ => rfl
  | (k, d) :: rest, ta, tb => by
    have ih := run_decidingPfx rest ta tb
    by_cases h0 : nvalueCompare (k ta) (k tb) = 0
    · have heq : k ta = k tb := (nvalueCompare_eq_zero_iff _ _).1 h0
      simp only [decidingPfx, if_pos h0]
      cases d with
      | ASC => rw [run_cons_ASC, run_cons_ASC, heq]; simpa using ih
      | DESC => rw [run_cons_DESC, run_cons_DESC, heq]; simpa using ih
      | INVALID => rw [run_cons_INVALID, run_cons_INVALID]
    · have hne : k ta ≠ k tb := fun he => h0 ((nvalueCompare_eq_zero_iff _ _).2 he)
      simp only [decidingPfx, if_neg h0]
      cases d with
      | ASC => rw [run_cons_ASC, run_cons_ASC]; split_ifs <;> first | rfl | omega
      | DESC => rw [run_cons_DESC, run_cons_DESC]; split_ifs <;> first | rfl | omega
      | INVALID => rw [run_cons_INVALID, run_cons_INVALID]

theorem run_error_iff :
    ∀ (s : SortSpec) (ta tb : Tuple),
      (∃ e, tupleComparerRun s ta tb = .error e) ↔
        ∃ pre k rest, s = pre ++ (k, SortDirectionType.INVALID) :: rest ∧
          ∀ p ∈ pre, nvalueCompare (p.1 ta) (p.1 tb) = 0
  | [], ta, tb => by
    constructor
    · rintro ⟨e, he⟩
      exact Except.noConfusion he
    · rintro ⟨pre, k, rest, hs, -⟩
      rcases pre with _ | ⟨p, pre⟩ <;> exact List.noConfusion hs
  | (k, d) :: s2, ta, tb => by
    have ih := run_error_iff s2 ta tb
    constructor
    · rintro ⟨e, he⟩
      cases d with
      | ASC =>
        rw [run_cons_ASC] at he
        split_ifs at he with h1 h2
        obtain ⟨pre, k2, rest, hs, hz⟩ := ih.1 ⟨e, he⟩
        refine ⟨(k, .ASC) :: pre, k2, rest, by rw [hs, List.cons_append], ?_⟩
        intro p hp
        rcases List.mem_cons.1 hp with hh | hh
        · subst hh
          simpa using (nvalueCompare_eq_zero_iff (k ta) (k tb)).2 (by omega)
        · exact hz p hh
      | DESC =>
        rw [run_cons_DESC] at he
        split_ifs at he with h1 h2
        obtain ⟨pre, k2, rest, hs, hz⟩ := ih.1 ⟨e, he⟩
        refine ⟨(k, .DESC) :: pre, k2, rest, by rw [hs, List.cons_append], ?_⟩
        intro p hp
        rcases List.mem_cons.1 hp with hh | hh
        · subst hh
          simpa using (nvalueCompare_eq_zero_iff (k ta) (k tb)).2 (by omega)
        · exact hz p hh
      | INVALID =>
        exact ⟨[], k, s2, rfl, by simp⟩
    · rintro ⟨pre, k2, rest, hs, hz⟩
      rw [hs]
      exact ⟨_, run_error_of_zeros pre k2 rest ta tb hz⟩

/- Sort model lemmas. -/

theorem extractMin_cons (lt : Tuple → Tuple → Bool) (a : Tuple) (l : List Tuple) :
    ∃ y rest, extractMin lt (a :: l) = some (y, rest) := by
  simp only [extractMin]
  cases hsub : extractMin lt l with
  | none => exact ⟨a, [], rfl⟩
  | some p =>
    rcases p with ⟨b, l2⟩
    by_cases hb : lt b a
    · exact ⟨b, a :: l2, by simp [hb]⟩
    · exact ⟨a, l, by simp [hb]⟩

theorem extractMin_none (lt : Tuple → Tuple → Bool) :
    ∀ l : List Tuple, extractMin lt l = none → l = []
  | [], _ => rfl
  | a :: l, h => by
    obtain ⟨y, rest, he⟩ := extractMin_cons lt a l
    rw [he] at h
    exact Option.noConfusion h

theorem extractMin_perm (lt : Tuple → Tuple → Bool) :
    ∀ (xs : List Tuple) (y : Tuple) (rest : List Tuple),
      extractMin lt xs = some (y, rest) → (y :: rest).Perm xs
  | [], _, _, h => Option.noConfusion h
  | a :: l, y, rest, h => by
    simp only [extractMin] at h
    cases hsub : extractMin lt l with
    | none =>
      rw [hsub] at h
      obtain rfl := extractMin_none lt l hsub
      simp only [Option.some.injEq, Prod.mk.injEq] at h
      obtain ⟨rfl, rfl⟩ := h
      exact List.Perm.refl _
    | some p =>
      rcases p with ⟨b, l2⟩
      rw [hsub] at h
      have ihp := extractMin_perm lt l b l2 hsub
      dsimp only at h
      split_ifs at h with hb
      · simp only [Option.some.injEq, Prod.mk.injEq] at h
        obtain ⟨rfl, rfl⟩ := h
        exact (List.Perm.swap a b l2).trans (ihp.cons a)
      · simp only [Option.some.injEq, Prod.mk.injEq] at h
        obtain ⟨rfl, rfl⟩ := h
        exact List.Perm.refl _

theorem selectSort_perm (lt : Tuple → Tuple → Bool) :
    ∀ (m : Nat) (xs : List Tuple), (selectSort lt m xs).Perm xs
  | 0, _ => List.Perm.refl _
  | m + 1, xs => by
    simp only [selectSort]
    cases hsub : extractMin lt xs with
    | none =>
      obtain rfl := extractMin_none lt xs hsub
      exact List.Perm.refl _
    | some p =>
      rcases p with ⟨y, rest⟩
      exact ((selectSort_perm lt m rest).cons y).trans (extractMin_perm lt xs y rest hsub)

theorem length_selectSort (lt : Tuple → Tuple → Bool) (m : Nat) (xs : List Tuple) :
    (selectSort lt m xs).length = xs.length :=
  (selectSort_perm lt m xs).length_eq

theorem insertionSort_extractMin (lt : Tuple → Tuple → Bool) :
    ∀ (xs : List Tuple) (y : Tuple) (rest : List Tuple),
      extractMin lt xs = some (y, rest) →
      List.insertionSort (bLe lt) xs = y :: List.insertionSort (bLe lt) rest
  | [], _, _, h => Option.noConfusion h
  | a :: l, y, rest, h => by
    simp only [extractMin] at h
    cases hsub : extractMin lt l with
    | none =>
      rw [hsub] at h
      obtain rfl := extractMin_none lt l hsub
      simp only [Option.some.injEq, Prod.mk.injEq] at h
      obtain ⟨rfl, rfl⟩ := h
      rfl
    | some p =>
      rcases p with ⟨b, l2⟩
      rw [hsub] at h
      have ih := insertionSort_extractMin lt l b l2 hsub
      dsimp only at h
      split_ifs at h with hb
      · simp only [Option.some.injEq, Prod.mk.injEq] at h
        obtain ⟨rfl, rfl⟩ := h
        have hnot : ¬ bLe lt a b := by simp [bLe, hb]
        simp only [List.insertionSort, ih, List.orderedInsert, if_neg hnot]
      · simp only [Option.some.injEq, Prod.mk.injEq] at h
        obtain ⟨rfl, rfl⟩ := h
        have hyes : bLe lt a b := by
          simp only [Bool.not_eq_true] at hb
          simpa [bLe] using hb
        simp only [List.insertionSort, ih, List.orderedInsert, if_pos hyes]

theorem selectSort_take_agree (lt : Tuple → Tuple → Bool) :
    ∀ (m : Nat) (xs : List Tuple),
      (selectSort lt m xs).take m = (List.insertionSort (bLe lt) xs).take m
  | 0, xs => by simp
  | m + 1, xs => by
    simp only [selectSort]
    cases hsub : extractMin lt xs with
    | none =>
      obtain rfl := extractMin_none lt xs hsub
      simp
    | some p =>
      rcases p with ⟨y, rest⟩
      rw [insertionSort_extractMin lt xs y rest hsub, List.take_succ_cons,
        List.take_succ_cons, selectSort_take_agree lt m rest]

/- Executor loop lemmas. -/

theorem materialize_noCancel :
    ∀ (input : List Tuple) (n : Nat),
      materialize noCancel input n = .ok (input, n + input.length)
  | [], _ => rfl
  | t :: ts, n => by
    simp only [materialize, noCancel, Bool.false_eq_true, if_false,
      materialize_noCancel ts (n + 1), List.length_cons]
    simp only [Except.ok.injEq, Prod.mk.injEq]
    exact ⟨trivial, by omega⟩

theorem materialize_cancel (cancelAt : Nat → Bool) :
    ∀ (input : List Tuple) (n k : Nat), k < input.length → cancelAt (n + k) = true →
      materialize cancelAt input n = .error ()
  | [], _, k, hk, _ => absurd hk (by simp)
  | t :: ts, n, k, hk, hc => by
    simp only [materialize]
    by_cases h0 : cancelAt n = true
    · rw [if_pos h0]
    · cases k with
      | zero =>
        rw [Nat.add_zero] at hc
        exact absurd hc h0
      | succ k2 =>
        have hk2 : k2 < ts.length := by
          simp only [List.length_cons] at hk
          omega
        have hc2 : cancelAt (n + 1 + k2) = true := by
          have he : n + 1 + k2 = n + (k2 + 1) := by omega
          rw [he]
          exact hc
        rw [if_neg h0, materialize_cancel cancelAt ts (n + 1) k2 hk2 hc2]

theorem materialize_ok (cancelAt : Nat → Bool) :
    ∀ (input xs : List Tuple) (n n2 : Nat),
      materialize cancelAt input n = .ok (xs, n2) → xs = input
  | [], xs, n, n2, h => by
    simp only [materialize, Except.ok.injEq, Prod.mk.injEq] at h
    exact h.1.symm
  | t :: ts, xs, n, n2, h => by
    simp only [materialize] at h
    split_ifs at h
    cases hrec : materialize cancelAt ts (n + 1) with
    | error e =>
      rw [hrec] at h
      exact Except.noConfusion h
    | ok p =>
      rcases p with ⟨xs2, m2⟩
      rw [hrec] at h
      simp only [Except.ok.injEq, Prod.mk.injEq] at h
      rw [← h.1, materialize_ok cancelAt ts xs2 (n + 1) m2 hrec]

theorem emitLoop_noCancel_post (lim off : Int) :
    ∀ (ys : List Tuple) (ctr skipped : Int) (n : Nat), off ≤ skipped →
      emitLoop noCancel lim off ys ctr skipped n =
        .ok (ys.take (if 0 ≤ lim then min ys.length (max (lim - ctr).toNat 1) else ys.length),
          n + (if 0 ≤ lim then min ys.length (max (lim - ctr).toNat 1) else ys.length))
  | [], ctr, skipped, n, h => by
    simp [emitLoop]
  | t :: rest, ctr, skipped, n, h => by
    have hns : ¬ skipped < off := not_lt.2 h
    simp only [emitLoop, if_neg hns, noCancel, Bool.false_eq_true, if_false]
    by_cases hbreak : 0 ≤ lim ∧ lim ≤ ctr + 1
    · rw [if_pos hbreak]
      have hE : (if 0 ≤ lim then min (t :: rest).length (max (lim - ctr).toNat 1)
          else (t :: rest).length) = 1 := by
        rw [if_pos hbreak.1, List.length_cons]
        omega
      rw [hE]
      rfl
    · rw [if_neg hbreak]
      rw [emitLoop_noCancel_post lim off rest (ctr + 1) skipped (n + 1) h]
      dsimp only
      by_cases hl : 0 ≤ lim
      · have hgt : ctr + 1 < lim := by
          rcases not_and_or.1 hbreak with h1 | h2
          · exact absurd hl h1
          · omega
        rw [if_pos hl, if_pos hl]
        have hE : min (t :: rest).length (max (lim - ctr).toNat 1) =
            min rest.length (max (lim - (ctr + 1)).toNat 1) + 1 := by
          rw [List.length_cons]
          omega
        rw [hE, List.take_succ_cons]
        simp only [Except.ok.injEq, Prod.mk.injEq]
        exact ⟨trivial, by omega⟩
      · rw [if_neg hl, if_neg hl, List.length_cons, List.take_succ_cons, List.take_length]
        simp only [Except.ok.injEq, Prod.mk.injEq, List.take_length]
        exact ⟨trivial, by omega⟩

theorem emitLoop_noCancel_skip (lim off : Int) :
    ∀ (ys : List Tuple) (skipped : Int) (n : Nat), skipped ≤ off →
      emitLoop noCancel lim off ys 0 skipped n =
        emitLoop noCancel lim off (ys.drop (off - skipped).toNat) 0 off n
  | [], skipped, n, _ => by
    simp [emitLoop]
  | t :: rest, skipped, n, h => by
    by_cases hlt : skipped < off
    · simp only [emitLoop, if_pos hlt]
      rw [emitLoop_noCancel_skip lim off rest (skipped + 1) n (by omega)]
      have hd : (t :: rest).drop (off - skipped).toNat =
          rest.drop (off - (skipped + 1)).toNat := by
        have h1 : (off - skipped).toNat = (off - (skipped + 1)).toNat + 1 := by omega
        rw [h1, List.drop_succ_cons]
      rw [hd]
    · have heq : skipped = off := le_antisymm h (not_lt.1 hlt)
      rw [heq]
      simp

theorem emitLoop_noCancel_closed (lim off : Int) (ys : List Tuple) (n : Nat) :
    emitLoop noCancel lim off ys 0 0 n =
      .ok ((ys.drop off.toNat).take (emitCount lim (ys.length - off.toNat)),
        n + emitCount lim (ys.length - off.toNat)) := by
  unfold emitCount
  by_cases hoff : (0 : Int) ≤ off
  · rw [emitLoop_noCancel_skip lim off ys 0 n hoff,
      emitLoop_noCancel_post lim off _ 0 off n le_rfl]
    simp only [sub_zero, List.length_drop]
  · have h0 : off.toNat = 0 := by omega
    rw [emitLoop_noCancel_post lim off ys 0 0 n (by omega)]
    simp only [h0, List.drop_zero, Nat.sub_zero, sub_zero]

theorem orderedSeq_perm (s : SortSpec) (lim off : Int) (xs : List Tuple) :
    (orderedSeq s lim off xs).Perm xs := by
  unfold orderedSeq
  split_ifs
  · exact selectSort_perm (tupleLess s) (lim + off).toNat xs
  · exact List.perm_insertionSort (bLe (tupleLess s)) xs

theorem length_orderedSeq (s : SortSpec) (lim off : Int) (xs : List Tuple) :
    (orderedSeq s lim off xs).length = xs.length :=
  (orderedSeq_perm s lim off xs).length_eq

theorem p_execute_noCancel (s : SortSpec) (lim off : Int) (input : List Tuple) :
    p_execute noCancel s lim off input =
      .ok (((orderedSeq s lim off input).drop off.toNat).take
          (emitCount lim (input.length - off.toNat)), true) := by
  unfold p_execute
  rw [materialize_noCancel input 0]
  dsimp only
  rw [emitLoop_noCancel_closed lim off (orderedSeq s lim off input) (0 + input.length)]
  dsimp only
  rw [length_orderedSeq]

theorem emitInserted_sublist (cancelAt : Nat → Bool) (lim off : Int) :
    ∀ (ys : List Tuple) (ctr skipped : Int) (n : Nat),
      (emitInserted (emitLoop cancelAt lim off ys ctr skipped n)).Sublist ys
  | [], _, _, _ => by
    simp [emitLoop, emitInserted]
  | t :: rest, ctr, skipped, n => by
    simp only [emitLoop]
    split_ifs with h1 h2 h3
    · exact (emitInserted_sublist cancelAt lim off rest ctr (skipped + 1) n).cons t
    · simp only [emitInserted]
      exact (List.nil_sublist rest).cons₂ t
    · simp only [emitInserted]
      exact (List.nil_sublist rest).cons₂ t
    · cases hrec : emitLoop cancelAt lim off rest (ctr + 1) skipped (n + 1) with
      | error out =>
        have ih := emitInserted_sublist cancelAt lim off rest (ctr + 1) skipped (n + 1)
        rw [hrec] at ih
        simp only [emitInserted] at ih ⊢
        exact ih.cons₂ t
      | ok p =>
        rcases p with ⟨out, n2⟩
        have ih := emitInserted_sublist cancelAt lim off rest (ctr + 1) skipped (n + 1)
        rw [hrec] at ih
        simp only [emitInserted] at ih ⊢
        exact ih.cons₂ t

/- Sortedness of the emitted window. -/

theorem window_eq_of_take_eq (ys zs : List Tuple) (m O E : Nat)
    (h : ys.take m = zs.take m) (hme : O + E ≤ m) :
    (ys.drop O).take E = (zs.drop O).take E := by
  have e1 : ∀ l : List Tuple, (l.take (O + E)).drop O = (l.drop O).take E := by
    intro l
    rw [List.drop_take, Nat.add_sub_cancel_left]
  have e2 : ys.take (O + E) = zs.take (O + E) := by
    have h3 := congrArg (List.take (O + E)) h
    rwa [List.take_take, List.take_take, Nat.min_eq_left hme] at h3
  rw [← e1 ys, ← e1 zs, e2]

theorem pairwise_of_short (R : Tuple → Tuple → Prop) :
    ∀ l : List Tuple, l.length ≤ 1 → l.Pairwise R
  | [], _ => List.Pairwise.nil
  | [a], _ => List.pairwise_singleton R a
  | _ :: _ :: _, h => absurd h (by simp)

theorem sorted_insertionSort_valid (s : SortSpec) (hs : ValidSpec s) (xs : List Tuple) :
    List.Sorted (bLe (tupleLess s)) (List.insertionSort (bLe (tupleLess s)) xs) := by
  haveI : IsTotal Tuple (bLe (tupleLess s)) := ⟨bLe_total_of_valid s hs⟩
  haveI : IsTrans Tuple (bLe (tupleLess s)) := ⟨bLe_trans_of_valid s hs⟩
  exact List.sorted_insertionSort (bLe (tupleLess s)) xs

theorem inserted_sorted_of_valid (s : SortSpec) (hs : ValidSpec s) (lim off : Int)
    (input : List Tuple) (hoff : 0 ≤ off ∨ (lim < 0 ∧ off = -1)) :
    List.Sorted (bLe (tupleLess s)) (insertedOf (p_execute noCancel s lim off input)) := by
  rw [p_execute_noCancel]
  simp only [insertedOf]
  unfold orderedSeq
  split_ifs with hc
  · obtain ⟨hl, hlt⟩ := hc
    have hoff0 : 0 ≤ off := by
      rcases hoff with h | ⟨h1, h2⟩
      · exact h
      · omega
    by_cases hl1 : 1 ≤ lim
    · have hEe : emitCount lim (input.length - off.toNat) = lim.toNat := by
        unfold emitCount
        rw [if_pos hl]
        omega
      have hme : off.toNat + emitCount lim (input.length - off.toNat) ≤ (lim + off).toNat := by
        omega
      rw [window_eq_of_take_eq _ _ ((lim + off).toNat) off.toNat _
        (selectSort_take_agree (tupleLess s) ((lim + off).toNat) input) hme]
      exact List.Pairwise.sublist
        ((List.take_sublist _ _).trans (List.drop_sublist _ _))
        (sorted_insertionSort_valid s hs input)
    · have hEe : emitCount lim (input.length - off.toNat) ≤ 1 := by
        unfold emitCount
        rw [if_pos hl]
        omega
      apply pairwise_of_short
      rw [List.length_take]
      omega
  · exact List.Pairwise.sublist
      ((List.take_sublist _ _).trans (List.drop_sublist _ _))
      (sorted_insertionSort_valid s hs input)

/- Pointwise readings of the comparator on concrete spec shapes. -/

theorem tupleLess_single_ASC (k : SortKey) (ta tb : Tuple) :
    tupleLess [(k, .ASC)] ta tb = decide (k ta < k tb) := by
  unfold tupleLess
  rw [run_cons_ASC]
  split_ifs with h1 h2
  · simp [h1]
  · simp [tupleComparerRun, h1]
  · simp [tupleComparerRun, h1]

theorem tupleLess_single_DESC (k : SortKey) (ta tb : Tuple) :
    tupleLess [(k, .DESC)] ta tb = decide (k tb < k ta) := by
  unfold tupleLess
  rw [run_cons_DESC]
  split_ifs with h1 h2
  · have h3 : ¬ (k tb < k ta) := by omega
    simp [h3]
  · simp [h2]
  · simp [tupleComparerRun, h2]

theorem bLe_single_ASC_imp (k : SortKey) (a b : Tuple) :
    bLe (tupleLess [(k, .ASC)]) a b → k a ≤ k b := by
  intro h
  unfold bLe at h
  rw [tupleLess_single_ASC] at h
  have := of_decide_eq_false h
  omega

theorem bLe_single_DESC_imp (k : SortKey) (a b : Tuple) :
    bLe (tupleLess [(k, .DESC)]) a b → k b ≤ k a := by
  intro h
  unfold bLe at h
  rw [tupleLess_single_DESC] at h
  have := of_decide_eq_false h
  omega

theorem bLe_two_key_imp (k1 k2 : SortKey) (a b : Tuple) :
    bLe (tupleLess [(k1, .ASC), (k2, .DESC)]) a b → k1 a = k1 b → k2 b ≤ k2 a := by
  intro h he
  unfold bLe tupleLess at h
  rw [run_cons_ASC, he] at h
  rw [if_neg (lt_irrefl (k1 b)), if_neg (lt_irrefl (k1 b))] at h
  rw [run_cons_DESC] at h
  split_ifs at h with h1 h2
  · omega
  · omega

theorem validSpec_single (k : SortKey) (d : SortDirectionType)
    (hd : d ≠ .INVALID) : ValidSpec [(k, d)] := by
  intro p hp
  rw [List.mem_singleton] at hp
  subst hp
  exact hd

theorem validSpec_pair (k1 k2 : SortKey) (d1 d2 : SortDirectionType)
    (h1 : d1 ≠ .INVALID) (h2 : d2 ≠ .INVALID) : ValidSpec [(k1, d1), (k2, d2)] := by
  intro p hp
  rcases List.mem_cons.1 hp with rfl | hp2
  · exact h1
  · rw [List.mem_singleton] at hp2
    subst hp2
    exact h2

/- Concrete fixtures for counterexamples and witnesses. -/

/-- A sort key reading the first column of a row. -/
def headKey : SortKey := fun t => t.headI

/-- A single ascending key on the first column. -/
def ascSpec : SortSpec := [(headKey, .ASC)]

/-- A spec whose second entry has an invalid direction. -/
def invalidTail : SortSpec := [(headKey, .ASC), (headKey, .INVALID)]

/-- A progress monitor raising the cancellation signal on its second call. -/
def cancelAtOne : Nat → Bool := fun n => decide (n = 1)

/- Claim theorems. -/

/-- C1 (counterexample): with one input tuple and a resolved window of
limit 0 and offset 0, p_execute inserts 1 tuple into the output table,
not min(max(N-O,0), L) = min(max(1-0,0), 0) = 0 as the claim states for a
set limit L = 0. -/
theorem orderby_C1_counterexample :
    (insertedOf (p_execute noCancel ascSpec 0 0 [[5]])).length ≠
      min (max (1 - 0) 0) 0 := by
  decide

/-- C1 (amended): for every spec, resolved window and input of length N,
p_execute with a monitor that never cancels succeeds (returns ok with true),
and the number of tuples inserted into the output table is
min(max(N-O,0), max(L,1)) when a limit L >= 0 is set — for L >= 1 this is
the claimed min(max(N-O,0), L); for L = 0 one tuple is inserted when any
remains past the offset, because the insertion precedes the limit check —
and max(N-O,0) when no limit is set (lim < 0), where O is the resolved
offset clamped at zero (absent offset behaves as 0).  In particular an
offset at or beyond N yields zero inserted tuples and the execution still
succeeds. -/
theorem orderby_C1_amended (s : SortSpec) (lim off : Int) (input : List Tuple) :
    (∃ out, p_execute noCancel s lim off input = .ok (out, true)) ∧
      (insertedOf (p_execute noCancel s lim off input)).length =
        (if 0 ≤ lim then min (input.length - off.toNat) (max lim.toNat 1)
         else input.length - off.toNat) := by
  constructor
  · exact ⟨_, p_execute_noCancel s lim off input⟩
  · rw [p_execute_noCancel]
    simp only [insertedOf]
    rw [List.length_take, List.length_drop, length_orderedSeq]
    unfold emitCount
    split_ifs with h
    · omega
    · omega

/-- C2: for every input, every resolved window, and a single-key SortSpec,
the sequence of tuples inserted into the output table is non-decreasing in
the key when the direction is Ascending and non-increasing when it is
Descending. -/
theorem orderby_C2 (k : SortKey) (lim off : Int) (input : List Tuple)
    (hoff : 0 ≤ off ∨ (lim < 0 ∧ off = -1)) :
    List.Sorted (fun a b => k a ≤ k b)
        (insertedOf (p_execute noCancel [(k, .ASC)] lim off input)) ∧
      List.Sorted (fun a b => k b ≤ k a)
        (insertedOf (p_execute noCancel [(k, .DESC)] lim off input)) := by
  constructor
  · exact List.Pairwise.imp (fun {a b} h => bLe_single_ASC_imp k a b h)
      (inserted_sorted_of_valid [(k, .ASC)]
        (validSpec_single k .ASC (by simp)) lim off input hoff)
  · exact List.Pairwise.imp (fun {a b} h => bLe_single_DESC_imp k a b h)
      (inserted_sorted_of_valid [(k, .DESC)]
        (validSpec_single k .DESC (by simp)) lim off input hoff)

/-- C2 (witness): the theorem applied at a single ascending key, limit 1,
offset 0 and a two-row input. -/
theorem orderby_C2_witness :
    ((0 : Int) ≤ 0 ∨ ((1 : Int) < 0 ∧ (0 : Int) = -1)) ∧
      List.Sorted (fun a b => headKey a ≤ headKey b)
        (insertedOf (p_execute noCancel [(headKey, .ASC)] 1 0 [[2], [1]])) :=
  ⟨Or.inl (by decide), (orderby_C2 headKey 1 0 [[2], [1]] (Or.inl (by decide))).1⟩

/-- C3: on a SortSpec with all directions valid the comparator returns the
lexicographic verdict (decided by the first entry whose direction-adjusted
comparison is non-zero); when all entries compare equal it returns false for
both argument orders; and under a two-key spec (k1 asc, k2 desc) the
inserted tuples with equal k1 appear in non-increasing k2 order. -/
theorem orderby_C3 (s : SortSpec) (ta tb : Tuple) (hs : ValidSpec s) :
    tupleComparerRun s ta tb = .ok (lexVerdict s ta tb) ∧
      ((∀ p ∈ s, nvalueCompare (p.1 ta) (p.1 tb) = 0) →
        tupleComparerRun s ta tb = .ok false ∧ tupleComparerRun s tb ta = .ok false) ∧
      (∀ (k1 k2 : SortKey) (lim off : Int) (input : List Tuple),
        (0 ≤ off ∨ (lim < 0 ∧ off = -1)) →
        List.Pairwise (fun a b => k1 a = k1 b → k2 b ≤ k2 a)
          (insertedOf (p_execute noCancel [(k1, .ASC), (k2, .DESC)] lim off input))) := by
  refine ⟨tupleComparerRun_eq_lexVerdict s ta tb hs, ?_, ?_⟩
  · intro hz
    have hz2 : ∀ p ∈ s, nvalueCompare (p.1 tb) (p.1 ta) = 0 := fun p hp =>
      (nvalueCompare_eq_zero_iff _ _).2 ((nvalueCompare_eq_zero_iff _ _).1 (hz p hp)).symm
    constructor
    · rw [tupleComparerRun_eq_lexVerdict s ta tb hs, lexVerdict_of_zeros s ta tb hz]
    · rw [tupleComparerRun_eq_lexVerdict s tb ta hs, lexVerdict_of_zeros s tb ta hz2]
  · intro k1 k2 lim off input hoff
    exact List.Pairwise.imp (fun {a b} h he => bLe_two_key_imp k1 k2 a b h he)
      (inserted_sorted_of_valid [(k1, .ASC), (k2, .DESC)]
        (validSpec_pair k1 k2 .ASC .DESC (by simp) (by simp)) lim off input hoff)

/-- C3 (witness): the theorem applied at the single ascending head-column
key and rows [1], [2]. -/
theorem orderby_C3_witness :
    ValidSpec ascSpec ∧
      tupleComparerRun ascSpec [1] [2] = .ok (lexVerdict ascSpec [1] [2]) :=
  ⟨by decide, (orderby_C3 ascSpec [1] [2] (by decide)).1⟩

/-- C4 (counterexample): with limit 0 and offset 1 on a three-row input
(so L >= 0 and L + O < N), the partial-ordering path emits the tuple that
sits unsorted at position 1, key 3, while a full sort followed by the same
windowing emits the tuple with key 2. -/
theorem orderby_C4_counterexample :
    insertedOf (p_execute noCancel ascSpec 0 1 [[3], [2], [1]]) = [[3]] ∧
      windowedFullSort ascSpec 0 1 [[3], [2], [1]] = [[2]] := by
  constructor <;> rfl

/-- C4 (amended): for a limit L >= 1 (and offset O >= 0) with L + O < N, the
output of the partial-ordering path equals the output of fully sorting the
materialized sequence with the same comparator and applying the same
offset/limit windowing.  (L = 0 is excluded: the one tuple it emits sits at
position O = L + O, outside the partially sorted range.) -/
theorem orderby_C4_amended (s : SortSpec) (lim off : Int) (input : List Tuple)
    (hlim : 1 ≤ lim) (hoff : 0 ≤ off) (hN : lim + off < (input.length : Int)) :
    insertedOf (p_execute noCancel s lim off input) =
      windowedFullSort s lim off input := by
  rw [p_execute_noCancel]
  unfold windowedFullSort
  rw [emitLoop_noCancel_closed]
  simp only [insertedOf, emitInserted]
  rw [List.length_insertionSort]
  unfold orderedSeq
  rw [if_pos ⟨by omega, hN⟩]
  apply window_eq_of_take_eq _ _ ((lim + off).toNat) _ _
    (selectSort_take_agree (tupleLess s) ((lim + off).toNat) input)
  unfold emitCount
  rw [if_pos (by omega : (0 : Int) ≤ lim)]
  omega

/-- C4 (witness): the amended theorem applied at limit 1, offset 1 and a
three-row input. -/
theorem orderby_C4_witness :
    ((1 : Int) ≤ 1 ∧ (0 : Int) ≤ 1 ∧ (1 + 1 : Int) < (([[3], [1], [2]] : List Tuple).length : Int)) ∧
      insertedOf (p_execute noCancel ascSpec 1 1 [[3], [1], [2]]) =
        windowedFullSort ascSpec 1 1 [[3], [1], [2]] :=
  ⟨⟨by decide, by decide, by decide⟩,
    orderby_C4_amended ascSpec 1 1 [[3], [1], [2]] (by decide) (by decide) (by decide)⟩

/-- C5: if the progress monitor raises the cancellation signal at some call
k with k < N made during materialization, p_execute propagates the failure
and no tuple has been inserted into the output table. -/
theorem orderby_C5 (cancelAt : Nat → Bool) (s : SortSpec) (lim off : Int)
    (input : List Tuple) (k : Nat) (hk : k < input.length) (hc : cancelAt k = true) :
    p_execute cancelAt s lim off input = .error [] := by
  unfold p_execute
  rw [materialize_cancel cancelAt input 0 k hk (by simpa using hc)]

/-- C5 (witness): the theorem applied to a monitor cancelling on its second
call over a three-row input. -/
theorem orderby_C5_witness :
    (1 < ([[1], [2], [3]] : List Tuple).length ∧ cancelAtOne 1 = true) ∧
      p_execute cancelAtOne ascSpec (-1) (-1) [[1], [2], [3]] = .error [] :=
  ⟨⟨by decide, by decide⟩,
    orderby_C5 cancelAtOne ascSpec (-1) (-1) [[1], [2], [3]] 1 (by decide) (by decide)⟩

/-- C6 (counterexample): a SortSpec containing an invalid direction in its
second entry, compared on a pair whose first-entry keys differ: the
comparator returns the verdict ok true instead of failing. -/
theorem orderby_C6_counterexample :
    (invalidTail.any fun p => decide (p.2 = SortDirectionType.INVALID)) = true ∧
      tupleComparerRun invalidTail [0] [1] = .ok true := by
  constructor <;> rfl

/-- C6 (amended): whenever every entry before an invalid-direction entry has
its key comparison equal on the pair (in particular whenever the invalid
entry comes first), the comparator fails fast with the exception naming
SORT_DIRECTION_TYPE_INVALID instead of returning an ordering verdict. -/
theorem orderby_C6_amended (pre : SortSpec) (k : SortKey) (rest : SortSpec)
    (ta tb : Tuple) (hpre : ∀ p ∈ pre, nvalueCompare (p.1 ta) (p.1 tb) = 0) :
    tupleComparerRun (pre ++ (k, .INVALID) :: rest) ta tb =
      .error invalidSortDirectionMsg :=
  run_error_of_zeros pre k rest ta tb hpre

/-- C6 (witness): the amended theorem applied with a one-entry equal prefix. -/
theorem orderby_C6_witness :
    (∀ p ∈ ([(headKey, SortDirectionType.ASC)] : SortSpec),
        nvalueCompare (p.1 [5]) (p.1 [5]) = 0) ∧
      tupleComparerRun ([(headKey, SortDirectionType.ASC)] ++
          (headKey, SortDirectionType.INVALID) :: []) [5] [5] =
        .error invalidSortDirectionMsg :=
  ⟨by decide, orderby_C6_amended [(headKey, .ASC)] headKey [] [5] [5] (by decide)⟩

/-- C7: p_init fails with a ConfigurationError exactly when the number of
bound input tables is not one; with exactly one input it derives the output
schema from the input schema, retains the inline limit node, and returns
true. -/
theorem orderby_C7 (n : Nat) (schema : Schema) (inlineLimit : Option Nat) :
    p_init n schema inlineLimit =
      if n = 1 then .ok (schema, inlineLimit, true)
      else .error configurationErrorMsg := rfl

/-- C8: whenever p_execute returns normally, the returned Bool is true; all
failure modes leave it as an exception (error), never as a false return. -/
theorem orderby_C8 (cancelAt : Nat → Bool) (s : SortSpec) (lim off : Int)
    (input out : List Tuple) (b : Bool)
    (h : p_execute cancelAt s lim off input = .ok (out, b)) : b = true := by
  unfold p_execute at h
  cases hm : materialize cancelAt input 0 with
  | error e =>
    rw [hm] at h
    exact Except.noConfusion h
  | ok p =>
    rcases p with ⟨xs, n⟩
    rw [hm] at h
    dsimp only at h
    cases he : emitLoop cancelAt lim off (orderedSeq s lim off xs) 0 0 n with
    | error out2 =>
      rw [he] at h
      exact Except.noConfusion h
    | ok q =>
      rcases q with ⟨out2, n2⟩
      rw [he] at h
      dsimp only at h
      simp only [Except.ok.injEq, Prod.mk.injEq] at h
      exact h.2.symm

/-- C8 (witness): the theorem applied at a concrete successful execution. -/
theorem orderby_C8_witness :
    p_execute noCancel ascSpec (-1) (-1) [[7]] = .ok ([[7]], true) ∧ true = true :=
  ⟨by rfl, orderby_C8 noCancel ascSpec (-1) (-1) [[7]] [[7]] true (by rfl)⟩

/-- C9: for every monitor, spec, window and input, every tuple this
execution inserted into the output table (also on a cancelled execution)
comes from the materialized input, each ordered position at most once: the
inserted list is a sub-permutation of the input. -/
theorem orderby_C9 (cancelAt : Nat → Bool) (s : SortSpec) (lim off : Int)
    (input : List Tuple) :
    (insertedOf (p_execute cancelAt s lim off input)).Subperm input := by
  unfold p_execute
  cases hm : materialize cancelAt input 0 with
  | error e =>
    simp only [insertedOf]
    exact List.nil_subperm
  | ok p =>
    rcases p with ⟨xs, n⟩
    obtain rfl : xs = input := materialize_ok cancelAt input xs 0 n hm
    dsimp only
    have hsub := emitInserted_sublist cancelAt lim off (orderedSeq s lim off xs) 0 0 n
    have hperm := orderedSeq_perm s lim off xs
    cases he : emitLoop cancelAt lim off (orderedSeq s lim off xs) 0 0 n with
    | error out =>
      rw [he] at hsub
      simp only [emitInserted] at hsub
      simp only [insertedOf]
      exact hsub.subperm.trans hperm.subperm
    | ok q =>
      rcases q with ⟨out, n2⟩
      rw [he] at hsub
      simp only [emitInserted] at hsub
      simp only [insertedOf]
      exact hsub.subperm.trans hperm.subperm

/-- C10: the comparator result on a pair — including whether it raises the
invalid-direction error — is the result on the spec's prefix up to and
including the first entry whose raw key comparison is non-zero; and it
raises an error precisely when some invalid-direction entry is preceded
only by entries whose key comparisons are all equal on the pair. -/
theorem orderby_C10 (s : SortSpec) (ta tb : Tuple) :
    tupleComparerRun s ta tb = tupleComparerRun (decidingPfx s ta tb) ta tb ∧
      ((∃ e, tupleComparerRun s ta tb = .error e) ↔
        ∃ pre k rest, s = pre ++ (k, SortDirectionType.INVALID) :: rest ∧
          ∀ p ∈ pre, nvalueCompare (p.1 ta) (p.1 tb) = 0) :=
  ⟨run_decidingPfx s ta tb, run_error_iff s ta tb⟩
